import Mathlib

/-!
Verification of the career-guidance service core logic.

The program keeps an in-memory table of career records (category, three
optional skill-bearing text fields, career title, recommended education),
and offers: a skill matcher ranking records by token overlap with a query,
a per-category row view, a resume skill extractor, a retrying chat wrapper
and a dataset loader with a hardcoded fallback table.

Strings are modelled as lists of characters (`Str`), rows as `Row`, and
each program function is translated directly from the source.
-/

namespace CareerGuide

/-- Strings are modelled as lists of characters. -/
abbrev Str : Type := List Char

/-- Build a `Str` from a string literal. -/
def lit (s : String) : Str := s.toList

/-- Whitespace characters stripped by `str.strip()`. -/
def isWS (c : Char) : Bool := c = ' ' || c = '\t' || c = '\n' || c = '\r'

/-- Model of Python `str.strip()`: drop whitespace from both ends. -/
def pyStrip (s : Str) : Str := ((s.dropWhile isWS).reverse.dropWhile isWS).reverse

/-- Model of Python `str.lower()`: lowercase every character. -/
def strLower (s : Str) : Str := s.map Char.toLower

/-- Model of Python `str.split(",")`: split at every comma. -/
def splitComma : Str → List Str
  | [] => [[]]
  | c :: rest =>
    if c = ',' then [] :: splitComma rest
    else
      match splitComma rest with
      | [] => [[c]]
      | t :: ts => (c :: t) :: ts

/-- Tokenisation used throughout the source:
`[s.strip().lower() for s in text.split(",") if s.strip()]`. -/
def parseTokens (s : Str) : List Str :=
  (splitComma s).filterMap fun p =>
    if pyStrip p = [] then none else some (strLower (pyStrip p))

/-- One dataset row. The three skill-bearing fields are optional
(a `none` models a missing / NaN cell, tested by `pd.notna`). -/
structure Row where
  category : Str
  skill : Option Str
  interests : Option Str
  hobby : Option Str
  career : Str
  education : Str
deriving DecidableEq, Repr

/-- The skill-bearing fields of a row that are present, in column order
Skill, Interests, Hobby. -/
def presentFields (r : Row) : List Str := [r.skill, r.interests, r.hobby].filterMap id

/-- The row's skill-token set: the loop
`for col in [Skill, Interests, Hobby]: if notna: row_skills.update(tokens)`. -/
def rowTokens (r : Row) : Finset Str :=
  (presentFields r).foldl (fun acc s => acc ∪ (parseTokens s).toFinset) ∅

/-- The parsed query token set: `set(s.strip().lower() for s in input.split(","))`. -/
def parseQuery (s : Str) : Finset Str := (parseTokens s).toFinset

/-- `overlap = len(skills_input_set & row_skills)`. -/
def overlapScore (q : Finset Str) (r : Row) : Nat := (q ∩ rowTokens r).card

/-- One emitted prediction entry. -/
structure MatchResult where
  career : Str
  category : Str
  education : Str
  score : Nat
deriving DecidableEq, Repr

/-- The `scores` list of `predict_career_from_skills`: every row with
positive overlap, paired with its overlap and its dataset row index
(the index is what `df.iterrows()` yields alongside the row). -/
def scoredRows (df : List Row) (skillsInput : Str) : List (Nat × Nat × Row) :=
  df.enum.filterMap fun ir =>
    let o := overlapScore (parseQuery skillsInput) ir.2
    if 0 < o then some (o, ir.1, ir.2) else none

/-- Stable descending insertion by score: the new entry goes in front of the
first entry whose score does not exceed it, so an entry inserted from further
left in the original list lands before equal-score entries from further
right. -/
def insertDesc (e : Nat × Nat × Row) : List (Nat × Nat × Row) → List (Nat × Nat × Row)
  | [] => [e]
  | x :: xs => if x.1 ≤ e.1 then e :: x :: xs else x :: insertDesc e xs

/-- Stable sort by score descending, realising
`sorted(scores, key=lambda x: -x[0])` (Python `sorted` is stable: equal
scores keep their list order). -/
def sortByScore (l : List (Nat × Nat × Row)) : List (Nat × Nat × Row) :=
  l.foldr insertDesc []

/-- The sorted `scores` list. -/
def rankedRows (df : List Row) (skillsInput : Str) : List (Nat × Nat × Row) :=
  sortByScore (scoredRows df skillsInput)

/-- Build the emitted dictionary from a scored entry. -/
def toResult (e : Nat × Nat × Row) : MatchResult :=
  { career := e.2.2.career, category := e.2.2.category,
    education := e.2.2.education, score := e.1 }

/-- `predict_career_from_skills(skills_input, count)`: score all rows, keep
positive overlaps, sort by score descending (stable), truncate to `count`,
emit result dictionaries. -/
def predict_career_from_skills (df : List Row) (skillsInput : Str) (count : Nat) :
    List MatchResult :=
  ((rankedRows df skillsInput).take count).map toResult

/-- Model of `", ".join(parts)`. -/
def joinCS : List Str → Str
  | [] => []
  | [x] => x
  | x :: y :: xs => x ++ ',' :: ' ' :: joinCS (y :: xs)

/-- The combined skill string a row contributes in `get_skills_for_category`:
`", ".join(combined)` over its present fields, or nothing when none are. -/
def combinedOf (r : Row) : Option Str :=
  match presentFields r with
  | [] => none
  | l => some (joinCS l)

/-- The row filter `df[df[Career_category].str.lower() == category.lower()]`. -/
def catMatch (category : Str) (r : Row) : Bool :=
  decide (strLower r.category = strLower category)

/-- Loop body of `get_skills_for_category`: append the row's combined skill
string when it has one. -/
def pushCombined (acc : List Str) (r : Row) : List Str :=
  match combinedOf r with
  | some s => acc ++ [s]
  | none => acc

/-- `get_skills_for_category(category)`: filter rows case-insensitively by
category, then append each matching row's combined skill string. -/
def get_skills_for_category (df : List Row) (category : Str) : List Str :=
  (df.filter (catMatch category)).foldl pushCombined []

/-- The rows kept by `df[[Skill, Interests, Hobby]].dropna()`:
only rows where all three fields are present, projected to those fields. -/
def allThree (r : Row) : Option (List Str) :=
  match r.skill, r.interests, r.hobby with
  | some a, some b, some c => some [a, b, c]
  | _, _, _ => none

/-- The `known_skills` value of the `/get_categories_and_skills` endpoint:
flatten the dropna-projected table row-major, strip each whole field string,
keep non-empty ones, deduplicate (`list(set(...))`). -/
def known_skills (df : List Row) : List Str :=
  (((df.filterMap allThree).flatten.map pyStrip).filter (fun s => !s.isEmpty)).dedup

/-- All field values present in each column, column by column, as iterated by
`for col in [Skill, Interests, Hobby]: for item in df[col].dropna().values`. -/
def colFieldValues (df : List Row) : List Str :=
  df.filterMap (fun r => r.skill) ++ df.filterMap (fun r => r.interests)
    ++ df.filterMap (fun r => r.hobby)

/-- The `all_skills_data` set of `analyze_resume`: every token of every
present field value, deduplicated. A list in a fixed order stands in for the
Python set, whose iteration order is unspecified. -/
def allSkillTokens (df : List Row) : List Str :=
  ((colFieldValues df).map parseTokens).flatten.dedup

/-- Does `needle` occur at the head of `hay`? -/
def leadMatch : Str → Str → Bool
  | [], _ => true
  | _ :: _, [] => false
  | a :: as, b :: bs => a == b && leadMatch as bs

/-- Model of Python `needle in hay`: substring containment. -/
def hasSub (needle : Str) : Str → Bool
  | [] => leadMatch needle []
  | c :: t => leadMatch needle (c :: t) || hasSub needle t

/-- The extraction loop of `analyze_resume`:
`if skill in resume_text and skill not in extracted_skills: append`. -/
def extract_skills (df : List Row) (resumeText : Str) : List Str :=
  (allSkillTokens df).foldl
    (fun acc skill =>
      if hasSub skill resumeText = true ∧ skill ∉ acc then acc ++ [skill] else acc)
    []

/-- The `career_details` value: career, education, category and an optional
score (the sentinel carries no score field). -/
structure CareerDetails where
  career : Str
  education : Str
  category : Str
  score : Option Nat
deriving DecidableEq, Repr

/-- The sentinel `{career: N/A, education: N/A, category: N/A}` with no score. -/
def sentinelDetails : CareerDetails :=
  { career := lit "N/A", education := lit "N/A", category := lit "N/A", score := none }

/-- Career details built from a match result (score present). -/
def detailsOf (m : MatchResult) : CareerDetails :=
  { career := m.career, education := m.education, category := m.category,
    score := some m.score }

/-- `analyze_resume`: lowercase the text, extract known skill tokens by
substring containment, feed the comma-joined tokens to the matcher with
`count=1`, fall back to the sentinel when no prediction comes back. -/
def analyze_resume (df : List Row) (resumeText : Str) : List Str × CareerDetails :=
  let extracted := extract_skills df (strLower resumeText)
  let pred := predict_career_from_skills df (joinCS extracted) 1
  (extracted,
    match pred with
    | [] => sentinelDetails
    | m :: _ => detailsOf m)

/-- `max_retries = 3`. -/
def maxRetries : Nat := 3

/-- Reply when the client is not initialised. -/
def notInitMsg : Str := lit "Error: Gemini client is not initialized. Check API key configuration."

/-- Reply after exhausting all retries. -/
def retryFailMsg : Str := lit "Error contacting Gemini API after several retries."

/-- The unreachable post-loop reply. -/
def unexpectedMsg : Str := lit "An unexpected error occurred."

/-- Observable outcome of one `chat_with_gemini` call: the returned string,
how many attempts were made, and the sleep durations in order. -/
structure ChatOutcome where
  reply : Str
  attempts : Nat
  sleeps : List Nat
deriving DecidableEq, Repr

/-- The retry loop `for attempt in range(max_retries)`, entered at a given
attempt index. `call attempt` is the outcome of the external completion call
on that attempt (`.ok` a text reply, `.error` an exception, which the source
catches). On failure before the last attempt it sleeps `2 ^ attempt` and
retries; on the last it returns the fixed failure string. -/
def chatFrom (call : Nat → Except Unit Str) (attempt : Nat) : ChatOutcome :=
  if _h : attempt < maxRetries then
    match call attempt with
    | .ok t => { reply := t, attempts := 1, sleeps := [] }
    | .error _ =>
      if attempt < maxRetries - 1 then
        let rest := chatFrom call (attempt + 1)
        { reply := rest.reply, attempts := rest.attempts + 1,
          sleeps := 2 ^ attempt :: rest.sleeps }
      else { reply := retryFailMsg, attempts := 1, sleeps := [] }
  else { reply := unexpectedMsg, attempts := 0, sleeps := [] }
termination_by maxRetries - attempt
decreasing_by omega

/-- `chat_with_gemini(message)`: immediate fixed reply when no client is
configured, otherwise the retry loop from attempt 0. -/
def chat_with_gemini (clientOk : Bool) (call : Nat → Except Unit Str) : ChatOutcome :=
  if clientOk then chatFrom call 0 else { reply := notInitMsg, attempts := 0, sleeps := [] }

/-- First fallback record (Technology / Software Engineer). -/
def fbTech : Row :=
  { category := lit "Technology", skill := some (lit "Programming, AI"),
    interests := some (lit "Video Games, Robotics"),
    hobby := some (lit "Coding, Reading"),
    career := lit "Software Engineer", education := lit "Bachelor's in CS" }

/-- Second fallback record (Healthcare / Nurse). -/
def fbHealth : Row :=
  { category := lit "Healthcare", skill := some (lit "Empathy, Biology"),
    interests := some (lit "Patient Care, Research"),
    hobby := some (lit "Volunteering, Fitness"),
    career := lit "Nurse", education := lit "BSN" }

/-- Third fallback record (Education / High School Teacher). -/
def fbEdu : Row :=
  { category := lit "Education", skill := some (lit "Teaching, Communication"),
    interests := some (lit "Mentoring, Learning"),
    hobby := some (lit "Tutoring, Public Speaking"),
    career := lit "High School Teacher", education := lit "Master's in Education" }

/-- The hardcoded fallback table. -/
def fallbackRows : List Row := [fbTech, fbHealth, fbEdu]

/-- The dataset load: `pd.read_csv` in a try block, raising on an empty
frame, with the fallback table substituted on any failure. The source is
`none` when the file is missing or unreadable, `some rows` when it parses. -/
def loadDataset (src : Option (List Row)) : List Row :=
  match src with
  | none => fallbackRows
  | some rows => if rows.isEmpty then fallbackRows else rows

/-- The ranking relation every emitted prefix satisfies: strictly larger
score first, and inside one score the smaller dataset row index first. -/
def rankRel (a b : Nat × Nat × Row) : Prop :=
  b.1 < a.1 ∨ (a.1 = b.1 ∧ a.2.1 < b.2.1)

/-- A two-row dataset witnessing that the round-trip property can fail
without duplicate records: the first row's token set strictly contains the
second row's. -/
def subRowA : Row :=
  { category := lit "A", skill := some (lit "a, b"), interests := none,
    hobby := none, career := lit "X", education := lit "E" }

/-- The second row of the round-trip counterexample dataset. -/
def subRowB : Row :=
  { category := lit "B", skill := some (lit "a"), interests := none,
    hobby := none, career := lit "Y", education := lit "F" }

theorem splitComma_ne_nil (s : Str) : splitComma s ≠ [] := by
  cases s with
  | nil => simp [splitComma]
  | cons c rest =>
    simp only [splitComma]
    split
    · simp
    · split <;> simp

theorem splitComma_append (a b : Str) :
    splitComma (a ++ ',' :: b) = splitComma a ++ splitComma b := by
  induction a with
  | nil => simp [splitComma]
  | cons c rest ih =>
    simp only [List.cons_append, splitComma, List.append_eq]
    split
    · simp [ih]
    · rw [ih]
      rcases h : splitComma rest with _ | ⟨t, ts⟩
      · exact absurd h (splitComma_ne_nil rest)
      · simp

theorem pyStrip_space (s : Str) : pyStrip (' ' :: s) = pyStrip s := by
  simp [pyStrip, List.dropWhile, isWS]

theorem parseTokens_append_comma (a b : Str) :
    parseTokens (a ++ ',' :: b) = parseTokens a ++ parseTokens b := by
  simp [parseTokens, splitComma_append]

theorem parseTokens_space (s : Str) : parseTokens (' ' :: s) = parseTokens s := by
  have hne := splitComma_ne_nil s
  simp only [parseTokens, splitComma]
  split
  · simp at *
  · rcases h : splitComma s with _ | ⟨t, ts⟩
    · exact absurd h hne
    · simp [h, List.filterMap_cons, pyStrip_space]

theorem parseTokens_nil : parseTokens ([] : Str) = [] := by decide

theorem parseTokens_joinCS_cons (x : Str) (xs : List Str) :
    parseTokens (joinCS (x :: xs)) = parseTokens x ++ parseTokens (joinCS xs) := by
  cases xs with
  | nil => simp [joinCS, parseTokens_nil]
  | cons y ys =>
    show parseTokens (x ++ ',' :: ' ' :: joinCS (y :: ys)) = _
    rw [parseTokens_append_comma, parseTokens_space]

theorem parseTokens_joinCS (l : List Str) :
    parseTokens (joinCS l) = (l.map parseTokens).flatten := by
  induction l with
  | nil => simp [joinCS, parseTokens_nil]
  | cons x xs ih => simp [parseTokens_joinCS_cons, ih]

theorem mem_foldl_union {α β : Type} [DecidableEq β] (f : α → Finset β) (l : List α)
    (init : Finset β) (x : β) :
    x ∈ l.foldl (fun acc s => acc ∪ f s) init ↔ x ∈ init ∨ ∃ s ∈ l, x ∈ f s := by
  induction l generalizing init with
  | nil => simp
  | cons a t ih =>
    simp only [List.foldl_cons, ih, Finset.mem_union, List.mem_cons]
    constructor
    · rintro ((h | h) | ⟨s, hs, hx⟩)
      · exact Or.inl h
      · exact Or.inr ⟨a, Or.inl rfl, h⟩
      · exact Or.inr ⟨s, Or.inr hs, hx⟩
    · rintro (h | ⟨s, (rfl | hs), hx⟩)
      · exact Or.inl (Or.inl h)
      · exact Or.inl (Or.inr hx)
      · exact Or.inr ⟨s, hs, hx⟩

theorem mem_rowTokens (r : Row) (x : Str) :
    x ∈ rowTokens r ↔ ∃ s ∈ presentFields r, x ∈ parseTokens s := by
  simp [rowTokens, mem_foldl_union]

theorem parseQuery_combined (r : Row) (s : Str) (hs : combinedOf r = some s) :
    parseQuery s = rowTokens r := by
  have hjoin : s = joinCS (presentFields r) := by
    revert hs
    simp only [combinedOf]
    rcases presentFields r with _ | ⟨f, fs⟩
    · simp
    · intro hs
      exact (Option.some_injective _ hs).symm
  subst hjoin
  ext x
  simp [parseQuery, mem_rowTokens, parseTokens_joinCS]

theorem insertDesc_perm (e : Nat × Nat × Row) (l : List (Nat × Nat × Row)) :
    List.Perm (insertDesc e l) (e :: l) := by
  induction l with
  | nil => exact List.Perm.refl _
  | cons x xs ih =>
    simp only [insertDesc]
    split
    · exact List.Perm.refl _
    · exact (List.Perm.cons x ih).trans (List.Perm.swap e x xs)

theorem sortByScore_perm (l : List (Nat × Nat × Row)) : List.Perm (sortByScore l) l := by
  induction l with
  | nil => exact List.Perm.refl _
  | cons x xs ih =>
    exact (insertDesc_perm x (sortByScore xs)).trans (List.Perm.cons x ih)

theorem mem_insertDesc (e x : Nat × Nat × Row) (l : List (Nat × Nat × Row)) :
    x ∈ insertDesc e l ↔ x = e ∨ x ∈ l := by
  rw [(insertDesc_perm e l).mem_iff, List.mem_cons]

theorem insertDesc_pairwise_rel (e : Nat × Nat × Row) (s : List (Nat × Nat × Row))
    (hp : s.Pairwise rankRel) (hidx : ∀ x ∈ s, e.2.1 < x.2.1) :
    (insertDesc e s).Pairwise rankRel := by
  induction s with
  | nil => simp [insertDesc, rankRel]
  | cons x xs ih =>
    rcases List.pairwise_cons.mp hp with ⟨hx, hxs⟩
    simp only [insertDesc]
    split
    · rename_i hle
      refine List.pairwise_cons.mpr ⟨?_, hp⟩
      intro y hy
      rcases List.mem_cons.mp hy with rfl | hy
      · rcases Nat.lt_or_ge y.1 e.1 with h | h
        · exact Or.inl h
        · exact Or.inr ⟨Nat.le_antisymm h hle, hidx y (by simp)⟩
      · have hyx : y.1 ≤ x.1 := by
          rcases hx y hy with h | ⟨h, _⟩
          · exact Nat.le_of_lt h
          · exact Nat.le_of_eq h.symm
        rcases Nat.lt_or_ge y.1 e.1 with h | h
        · exact Or.inl h
        · exact Or.inr ⟨Nat.le_antisymm h (Nat.le_trans hyx hle),
            hidx y (List.mem_cons_of_mem x hy)⟩
    · rename_i hgt
      refine List.pairwise_cons.mpr ⟨?_, ih hxs (fun z hz => hidx z (List.mem_cons_of_mem x hz))⟩
      intro y hy
      rcases (mem_insertDesc e y xs).mp hy with rfl | hy
      · exact Or.inl (Nat.lt_of_not_le hgt)
      · exact hx y hy

theorem sortByScore_pairwise_rel (l : List (Nat × Nat × Row))
    (h : l.Pairwise (fun a b => a.2.1 < b.2.1)) :
    (sortByScore l).Pairwise rankRel := by
  induction l with
  | nil => simp [sortByScore]
  | cons e t ih =>
    rcases List.pairwise_cons.mp h with ⟨he, ht⟩
    exact insertDesc_pairwise_rel e (sortByScore t) (ih ht)
      (fun x hx => he x ((sortByScore_perm t).mem_iff.mp hx))

theorem rankRel_score_le {a b : Nat × Nat × Row} (h : rankRel a b) : b.1 ≤ a.1 := by
  rcases h with h | ⟨h, _⟩
  · exact Nat.le_of_lt h
  · exact Nat.le_of_eq h.symm

theorem mem_scoredRows (df : List Row) (q : Str) (e : Nat × Nat × Row) :
    e ∈ scoredRows df q ↔
      df[e.2.1]? = some e.2.2 ∧ e.1 = overlapScore (parseQuery q) e.2.2 ∧ 0 < e.1 := by
  simp only [scoredRows, List.mem_filterMap]
  constructor
  · rintro ⟨⟨i, r⟩, hir, hf⟩
    rw [List.mem_enum_iff_getElem?] at hir
    by_cases h : 0 < overlapScore (parseQuery q) r
    · simp only [if_pos h] at hf
      cases hf
      exact ⟨hir, rfl, h⟩
    · simp only [if_neg h] at hf
      cases hf
  · rintro ⟨hget, hsc, hpos⟩
    refine ⟨(e.2.1, e.2.2), List.mem_enum_iff_getElem?.mpr hget, ?_⟩
    simp only [← hsc, if_pos hpos]

theorem scoredRows_idx_pairwise (df : List Row) (q : Str) :
    (scoredRows df q).Pairwise (fun a b => a.2.1 < b.2.1) := by
  have henum : (df.enum).Pairwise (fun a b : Nat × Row => a.1 < b.1) := by
    apply List.pairwise_iff_getElem.mpr
    intro i j hi hj hij
    simp only [List.getElem_enum]
    simpa using hij
  simp only [scoredRows]
  apply List.pairwise_filterMap.mpr
  refine henum.imp ?_
  intro a b hab x hx y hy
  have hxa : x.2.1 = a.1 := by
    by_cases h : 0 < overlapScore (parseQuery q) a.2
    · simp only [if_pos h, Option.mem_def, Option.some_inj] at hx
      cases hx; rfl
    · simp only [if_neg h, Option.mem_def] at hx
      cases hx
  have hyb : y.2.1 = b.1 := by
    by_cases h : 0 < overlapScore (parseQuery q) b.2
    · simp only [if_pos h, Option.mem_def, Option.some_inj] at hy
      cases hy; rfl
    · simp only [if_neg h, Option.mem_def] at hy
      cases hy
  rw [hxa, hyb]
  exact hab

theorem countP_enumFrom (p : Row → Bool) (l : List Row) :
    ∀ n, ((l.enumFrom n).countP fun ir => p ir.2) = l.countP p := by
  induction l with
  | nil => intro n; rfl
  | cons r t ih =>
    intro n
    simp [List.enumFrom, List.countP_cons, ih]

theorem scoredRows_length (df : List Row) (q : Str) :
    (scoredRows df q).length
      = df.countP (fun r => decide (0 < overlapScore (parseQuery q) r)) := by
  simp only [scoredRows]
  rw [List.length_filterMap_eq_countP]
  have hc : ∀ ir ∈ df.enum,
      ((if 0 < overlapScore (parseQuery q) ir.2
          then some (overlapScore (parseQuery q) ir.2, ir.1, ir.2) else none).isSome) = true
        ↔ decide (0 < overlapScore (parseQuery q) ir.2) = true := by
    intro ir _
    by_cases h : 0 < overlapScore (parseQuery q) ir.2 <;> simp [h]
  rw [List.countP_congr hc]
  exact countP_enumFrom (fun r => decide (0 < overlapScore (parseQuery q) r)) df 0

theorem rankedRows_perm (df : List Row) (q : Str) :
    List.Perm (rankedRows df q) (scoredRows df q) :=
  sortByScore_perm _

theorem rankedRows_pairwise (df : List Row) (q : Str) :
    (rankedRows df q).Pairwise rankRel :=
  sortByScore_pairwise_rel _ (scoredRows_idx_pairwise df q)

theorem mem_rankedRows (df : List Row) (q : Str) (e : Nat × Nat × Row) :
    e ∈ rankedRows df q ↔ e ∈ scoredRows df q :=
  (rankedRows_perm df q).mem_iff

theorem predict_length (df : List Row) (q : Str) (k : Nat) :
    (predict_career_from_skills df q k).length = min k (scoredRows df q).length := by
  simp [predict_career_from_skills, List.length_take, (rankedRows_perm df q).length_eq]

theorem scoredRows_eq_nil_of_no_overlap (df : List Row) (q : Str)
    (h : ∀ r ∈ df, overlapScore (parseQuery q) r = 0) : scoredRows df q = [] := by
  rw [List.eq_nil_iff_forall_not_mem]
  intro e he
  rcases (mem_scoredRows df q e).mp he with ⟨hget, hsc, hpos⟩
  have hmem : e.2.2 ∈ df := List.getElem?_mem hget
  rw [h e.2.2 hmem] at hsc
  omega

theorem predict_of_no_overlap (df : List Row) (q : Str) (k : Nat)
    (h : ∀ r ∈ df, overlapScore (parseQuery q) r = 0) :
    predict_career_from_skills df q k = [] := by
  simp [predict_career_from_skills, rankedRows, scoredRows_eq_nil_of_no_overlap df q h,
    sortByScore]

theorem overlapScore_empty (r : Row) : overlapScore ∅ r = 0 := by
  simp [overlapScore]

theorem foldl_pushCombined (l : List Row) (acc : List Str) :
    l.foldl pushCombined acc = acc ++ l.filterMap combinedOf := by
  induction l generalizing acc with
  | nil => simp
  | cons x t ih =>
    cases hx : combinedOf x <;> simp [pushCombined, List.filterMap_cons, hx, ih]

theorem leadMatch_iff (n : Str) : ∀ h : Str, leadMatch n h = true ↔ ∃ q, h = n ++ q := by
  induction n with
  | nil =>
    intro h
    simp [leadMatch]
  | cons a as ih =>
    intro h
    cases h with
    | nil =>
      simp only [leadMatch, List.cons_append]
      constructor
      · intro hf; cases hf
      · rintro ⟨q, hq⟩; cases hq
    | cons b bs =>
      simp only [leadMatch, Bool.and_eq_true, beq_iff_eq, ih, List.cons_append]
      constructor
      · rintro ⟨rfl, q, rfl⟩
        exact ⟨q, rfl⟩
      · rintro ⟨q, hq⟩
        cases hq
        exact ⟨rfl, q, rfl⟩

theorem hasSub_iff (n : Str) : ∀ h : Str, hasSub n h = true ↔ ∃ p q, h = p ++ n ++ q := by
  intro h
  induction h with
  | nil =>
    simp only [hasSub, leadMatch_iff]
    constructor
    · rintro ⟨q, hq⟩
      exact ⟨[], q, hq⟩
    · rintro ⟨p, q, hpq⟩
      rcases List.append_eq_nil.mp (List.append_eq_nil.mp hpq.symm).1 with ⟨-, hn⟩
      exact ⟨[], by simp [hn]⟩
  | cons c t ih =>
    simp only [hasSub, Bool.or_eq_true, leadMatch_iff, ih]
    constructor
    · rintro (⟨q, hq⟩ | ⟨p, q, hpq⟩)
      · exact ⟨[], q, by simpa using hq⟩
      · exact ⟨c :: p, q, by simp [hpq]⟩
    · rintro ⟨p, q, hpq⟩
      cases p with
      | nil => exact Or.inl ⟨q, by simpa using hpq⟩
      | cons d ds =>
        simp only [List.cons_append, List.append_assoc] at hpq
        cases hpq
        exact Or.inr ⟨ds, q, by simp⟩

theorem extract_foldl (text : Str) (l : List Str) :
    ∀ acc : List Str, l.Nodup → (∀ x ∈ l, x ∉ acc) →
    (l.foldl (fun acc skill =>
        if hasSub skill text = true ∧ skill ∉ acc then acc ++ [skill] else acc) acc)
      = acc ++ l.filter (fun s => hasSub s text) := by
  induction l with
  | nil => intro acc _ _; simp
  | cons x t ih =>
    intro acc hnd hdisj
    rcases List.nodup_cons.mp hnd with ⟨hx, ht⟩
    have hxacc : x ∉ acc := hdisj x (List.mem_cons_self x t)
    by_cases hsub : hasSub x text = true
    · rw [List.foldl_cons, if_pos ⟨hsub, hxacc⟩, ih (acc ++ [x]) ht ?_]
      · simp [List.filter_cons, hsub]
      · intro y hy
        simp only [List.mem_append, List.mem_singleton]
        rintro (hyacc | rfl)
        · exact hdisj y (List.mem_cons_of_mem x hy) hyacc
        · exact hx hy
    · rw [List.foldl_cons, if_neg (fun hc => hsub hc.1),
        ih acc ht (fun y hy => hdisj y (List.mem_cons_of_mem x hy))]
      simp [List.filter_cons, hsub]

theorem allSkillTokens_nodup (df : List Row) : (allSkillTokens df).Nodup :=
  List.nodup_dedup _

theorem extract_skills_eq_filter (df : List Row) (text : Str) :
    extract_skills df text = (allSkillTokens df).filter (fun s => hasSub s text) := by
  have h := extract_foldl text (allSkillTokens df) [] (allSkillTokens_nodup df)
    (by intro x _ hx; cases hx)
  simpa [extract_skills] using h

theorem mem_extract_skills (df : List Row) (text : Str) (t : Str) :
    t ∈ extract_skills df text ↔ t ∈ allSkillTokens df ∧ ∃ p q, text = p ++ t ++ q := by
  rw [extract_skills_eq_filter, List.mem_filter, hasSub_iff]

theorem extract_skills_nodup (df : List Row) (text : Str) :
    (extract_skills df text).Nodup := by
  rw [extract_skills_eq_filter]
  exact (allSkillTokens_nodup df).filter _

theorem allThree_eq_some (r : Row) (fields : List Str) :
    allThree r = some fields ↔ ∃ a b c, r.skill = some a ∧ r.interests = some b ∧
      r.hobby = some c ∧ fields = [a, b, c] := by
  rcases hskill : r.skill with _ | a <;> rcases hint : r.interests with _ | b <;>
    rcases hhob : r.hobby with _ | c <;>
    simp [allThree, hskill, hint, hhob, eq_comm]

theorem mem_known_skills (df : List Row) (s : Str) :
    s ∈ known_skills df ↔ s ≠ [] ∧ ∃ r ∈ df, ∃ a b c,
      r.skill = some a ∧ r.interests = some b ∧ r.hobby = some c ∧
      (s = pyStrip a ∨ s = pyStrip b ∨ s = pyStrip c) := by
  simp only [known_skills, List.mem_dedup, List.mem_filter, List.mem_map,
    List.mem_flatten, List.mem_filterMap, allThree_eq_some]
  constructor
  · rintro ⟨⟨fld, ⟨fields, ⟨r, hr, a, b, c, ha, hb, hc, rfl⟩, hfldmem⟩, rfl⟩, hne⟩
    refine ⟨by simpa using hne, r, hr, a, b, c, ha, hb, hc, ?_⟩
    simp only [List.mem_cons, List.mem_singleton, List.not_mem_nil, or_false] at hfldmem
    rcases hfldmem with rfl | rfl | rfl
    · exact Or.inl rfl
    · exact Or.inr (Or.inl rfl)
    · exact Or.inr (Or.inr rfl)
  · rintro ⟨hne, r, hr, a, b, c, ha, hb, hc, hcase⟩
    refine ⟨?_, by simpa using hne⟩
    rcases hcase with rfl | rfl | rfl
    · exact ⟨a, ⟨[a, b, c], ⟨r, hr, a, b, c, ha, hb, hc, rfl⟩, by simp⟩, rfl⟩
    · exact ⟨b, ⟨[a, b, c], ⟨r, hr, a, b, c, ha, hb, hc, rfl⟩, by simp⟩, rfl⟩
    · exact ⟨c, ⟨[a, b, c], ⟨r, hr, a, b, c, ha, hb, hc, rfl⟩, by simp⟩, rfl⟩

theorem known_skills_nodup (df : List Row) : (known_skills df).Nodup :=
  List.nodup_dedup _

theorem chatFrom_all_fail (call : Nat → Except Unit Str)
    (h : ∀ i, i < maxRetries → call i = Except.error ()) :
    chatFrom call 0 = { reply := retryFailMsg, attempts := 3, sleeps := [1, 2] } := by
  have h0 := h 0 (by decide)
  have h1 := h 1 (by decide)
  have h2 := h 2 (by decide)
  rw [chatFrom, h0, chatFrom, h1, chatFrom, h2]
  simp [maxRetries]

theorem chatFrom_success (call : Nat → Except Unit Str) (k : Nat) (t : Str)
    (hk : k < maxRetries) (hfail : ∀ i, i < k → call i = Except.error ())
    (hok : call k = Except.ok t) : (chatFrom call 0).reply = t := by
  have hk3 : k < 3 := hk
  interval_cases k
  · rw [chatFrom, hok]
    simp [maxRetries]
  · rw [chatFrom, hfail 0 (by omega), chatFrom, hok]
    simp [maxRetries]
  · rw [chatFrom, hfail 0 (by omega), chatFrom, hfail 1 (by omega), chatFrom, hok]
    simp [maxRetries]

theorem combinedOf_eq_some (r : Row) (s : Str) :
    combinedOf r = some s ↔ presentFields r ≠ [] ∧ s = joinCS (presentFields r) := by
  rcases h : presentFields r with _ | ⟨f, fs⟩ <;> simp [combinedOf, h, eq_comm]

theorem gsfc_eq_filterMap (df : List Row) (c : Str) :
    get_skills_for_category df c = (df.filter (catMatch c)).filterMap combinedOf := by
  have h := foldl_pushCombined (df.filter (catMatch c)) []
  simpa [get_skills_for_category] using h

/-- C1: for every query string and topK at least 1, the matcher's outputs
come from dataset rows with strictly positive overlap (each carrying that
row's overlap as its score), are ordered by score descending with
equal-score entries in dataset row order, and the output length is the
minimum of topK and the number of rows with non-zero overlap. -/
theorem matcher_ranked_output (df : List Row) (q : Str) (k : Nat) (_hk : 1 ≤ k) :
    (∀ e ∈ (rankedRows df q).take k,
        df[e.2.1]? = some e.2.2 ∧ e.1 = overlapScore (parseQuery q) e.2.2 ∧ 0 < e.1) ∧
    ((rankedRows df q).take k).Pairwise rankRel ∧
    (predict_career_from_skills df q k).length
      = min k (df.countP fun r => decide (0 < overlapScore (parseQuery q) r)) ∧
    predict_career_from_skills df q k = ((rankedRows df q).take k).map toResult := by
  refine ⟨?_, ?_, ?_, rfl⟩
  · intro e he
    exact (mem_scoredRows df q e).mp
      ((mem_rankedRows df q e).mp (List.take_subset k _ he))
  · exact List.Pairwise.sublist (List.take_sublist k _) (rankedRows_pairwise df q)
  · rw [predict_length, scoredRows_length]

/-- Witness for the matcher ranking theorem on the fallback table. -/
theorem matcher_ranked_output_witness :
    (predict_career_from_skills fallbackRows (lit "Programming, AI") 1).length
      = min 1 (fallbackRows.countP fun r =>
          decide (0 < overlapScore (parseQuery (lit "Programming, AI")) r)) :=
  (matcher_ranked_output fallbackRows (lit "Programming, AI") 1 (by decide)).2.2.1

/-- C10: every emitted match result has a strictly positive score; a
zero-score result is never observable. -/
theorem emitted_scores_positive (df : List Row) (q : Str) (k : Nat) (m : MatchResult)
    (hm : m ∈ predict_career_from_skills df q k) : 1 ≤ m.score := by
  simp only [predict_career_from_skills] at hm
  rcases List.mem_map.mp hm with ⟨e, he, rfl⟩
  have hpos := ((mem_scoredRows df q e).mp
    ((mem_rankedRows df q e).mp (List.take_subset k _ he))).2.2
  simpa [toResult] using hpos

/-- Witness: the top fallback-table result for "Programming, AI" has a
positive score. -/
theorem emitted_scores_positive_witness :
    1 ≤ (MatchResult.mk (lit "Software Engineer") (lit "Technology")
      (lit "Bachelor's in CS") 2).score :=
  emitted_scores_positive fallbackRows (lit "Programming, AI") 1 _ (by decide)

/-- C5: the loaded dataset is never empty, and a missing, unreadable or
empty source is replaced by the fixed fallback table of 3 records in 3
distinct categories. -/
theorem load_fallback_on_failure (src : Option (List Row)) :
    loadDataset src ≠ [] ∧
    ((src = none ∨ src = some []) → loadDataset src = fallbackRows) ∧
    fallbackRows.length = 3 ∧ (fallbackRows.map Row.category).Nodup := by
  refine ⟨?_, ?_, rfl, by decide⟩
  · rcases src with _ | rows
    · simp [loadDataset, fallbackRows, fbTech, fbHealth, fbEdu]
    · by_cases h : rows.isEmpty
      · simp [loadDataset, h, fallbackRows, fbTech, fbHealth, fbEdu]
      · simp only [loadDataset, if_neg h]
        intro hnil
        exact h (hnil ▸ rfl)
  · rintro (rfl | rfl) <;> simp [loadDataset]

/-- Witness: loading from a missing source yields the fallback table. -/
theorem load_fallback_on_failure_witness : loadDataset none = fallbackRows :=
  (load_fallback_on_failure none).2.1 (Or.inl rfl)

/-- C6: category row lookup compares category labels case-insensitively, so
arguments equal up to letter case give equal results, and every returned
entry is the comma-join of a matching row's present skill fields, with rows
kept in original order. -/
theorem category_rows_caseless (df : List Row) :
    (∀ c₁ c₂ : Str, strLower c₁ = strLower c₂ →
      get_skills_for_category df c₁ = get_skills_for_category df c₂) ∧
    (∀ c : Str, get_skills_for_category df c
      = (df.filter (catMatch c)).filterMap combinedOf) ∧
    (∀ c : Str, ∀ s ∈ get_skills_for_category df c, ∃ r ∈ df,
      strLower r.category = strLower c ∧ presentFields r ≠ [] ∧
      s = joinCS (presentFields r)) := by
  refine ⟨?_, gsfc_eq_filterMap df, ?_⟩
  · intro c₁ c₂ h
    rw [gsfc_eq_filterMap, gsfc_eq_filterMap]
    have : df.filter (catMatch c₁) = df.filter (catMatch c₂) := by
      apply List.filter_congr
      intro r _
      simp [catMatch, h]
    rw [this]
  · intro c s hs
    rw [gsfc_eq_filterMap] at hs
    rcases List.mem_filterMap.mp hs with ⟨r, hr, hcomb⟩
    rcases List.mem_filter.mp hr with ⟨hrdf, hcat⟩
    rcases (combinedOf_eq_some r s).mp hcomb with ⟨hnefields, rfl⟩
    exact ⟨r, hrdf, by simpa [catMatch] using hcat, hnefields, rfl⟩

/-- Witness: on the fallback table, lookups under "technology" and
"Technology" agree. -/
theorem category_rows_caseless_witness :
    get_skills_for_category fallbackRows (lit "technology")
      = get_skills_for_category fallbackRows (lit "Technology") :=
  (category_rows_caseless fallbackRows).1 (lit "technology") (lit "Technology") (by decide)

/-- C7: an empty query parses to the empty token set; a query with zero
overlap against every row yields the empty result; and when topK is at
least the number of rows with non-zero overlap, the matcher returns
exactly all such rows, ranked, with no padding. -/
theorem matcher_edge_behavior (df : List Row) (q : Str) (k : Nat) (_hk : 1 ≤ k) :
    parseQuery ([] : Str) = ∅ ∧
    (parseQuery q = ∅ → predict_career_from_skills df q k = []) ∧
    ((∀ r ∈ df, overlapScore (parseQuery q) r = 0) →
      predict_career_from_skills df q k = []) ∧
    ((df.countP fun r => decide (0 < overlapScore (parseQuery q) r)) ≤ k →
      predict_career_from_skills df q k = (rankedRows df q).map toResult ∧
      (predict_career_from_skills df q k).length
        = df.countP (fun r => decide (0 < overlapScore (parseQuery q) r)) ∧
      List.Perm (predict_career_from_skills df q k)
        ((scoredRows df q).map toResult)) := by
  refine ⟨by decide, ?_, predict_of_no_overlap df q k, ?_⟩
  · intro hq
    exact predict_of_no_overlap df q k (fun r _ => by rw [hq]; exact overlapScore_empty r)
  · intro hcount
    have hlen : (rankedRows df q).length ≤ k := by
      rw [(rankedRows_perm df q).length_eq, scoredRows_length]
      exact hcount
    have htake : (rankedRows df q).take k = rankedRows df q := List.take_of_length_le hlen
    refine ⟨by rw [predict_career_from_skills, htake], ?_, ?_⟩
    · rw [predict_length, scoredRows_length]
      omega
    · rw [predict_career_from_skills, htake]
      exact (rankedRows_perm df q).map toResult

/-- Witness: a query with no overlap against the fallback table returns the
empty result. -/
theorem matcher_edge_behavior_witness :
    predict_career_from_skills fallbackRows (lit "quantum") 1 = [] :=
  (matcher_edge_behavior fallbackRows (lit "quantum") 1 (by decide)).2.2.1 (by decide)

/-- C2 counterexample: on the fallback table, the endpoint's known_skills
collection is not the set of lowercase comma-split tokens: the token
"programming" is a skill token but not a member of known_skills (which
instead holds whole field strings such as "Programming, AI"). -/
theorem known_skills_not_tokens :
    lit "programming" ∈ allSkillTokens fallbackRows ∧
    lit "programming" ∉ known_skills fallbackRows ∧
    lit "Programming, AI" ∈ known_skills fallbackRows ∧
    ¬ (∀ t : Str, t ∈ known_skills fallbackRows ↔ t ∈ allSkillTokens fallbackRows) := by
  refine ⟨by decide, by decide, by decide, fun h => ?_⟩
  exact (by decide : lit "programming" ∉ known_skills fallbackRows)
    ((h (lit "programming")).mpr (by decide))

/-- C2 amended: known_skills holds exactly the distinct trimmed non-empty
whole field values (not lowercased, not comma-split) of rows where all
three skill-bearing fields are present, without duplicates. -/
theorem known_skills_whole_fields (df : List Row) :
    (∀ s, s ∈ known_skills df ↔ s ≠ [] ∧ ∃ r ∈ df, ∃ a b c,
      r.skill = some a ∧ r.interests = some b ∧ r.hobby = some c ∧
      (s = pyStrip a ∨ s = pyStrip b ∨ s = pyStrip c)) ∧
    (known_skills df).Nodup :=
  ⟨mem_known_skills df, known_skills_nodup df⟩

/-- C3 counterexample: a duplicate-free two-row dataset where the first
row's token set strictly contains the second row's; querying the second
row's own combined skill string with topK 1 returns the first row, not the
second. -/
theorem roundtrip_claim_fails :
    [subRowA, subRowB].Nodup ∧
    combinedOf subRowB = some (lit "a") ∧
    (rowTokens subRowB).card = 1 ∧
    predict_career_from_skills [subRowA, subRowB] (lit "a") 1
      = [{ career := lit "X", category := lit "A", education := lit "E", score := 1 }] ∧
    predict_career_from_skills [subRowA, subRowB] (lit "a") 1
      ≠ [{ career := subRowB.career, category := subRowB.category,
           education := subRowB.education, score := (rowTokens subRowB).card }] :=
  ⟨by decide, by decide, by decide, by decide, by decide⟩

/-- C3 amended: the round trip holds for a record with a non-empty token
set when no other row's token set contains it (which in particular rules
out duplicates of the record): querying its own combined skill string with
topK 1 returns exactly that record scored with its own token count. -/
theorem roundtrip_top_match (df : List Row) (i : Nat) (r : Row) (s : Str)
    (hget : df[i]? = some r) (hne : rowTokens r ≠ ∅)
    (hmax : ∀ j, j < df.length → j ≠ i → ¬ rowTokens r ⊆ rowTokens (df.getD j r))
    (hs : combinedOf r = some s) :
    predict_career_from_skills df s 1
      = [{ career := r.career, category := r.category, education := r.education,
           score := (rowTokens r).card }] := by
  have hq : parseQuery s = rowTokens r := parseQuery_combined r s hs
  have hoverlap : overlapScore (parseQuery s) r = (rowTokens r).card := by
    rw [overlapScore, hq, Finset.inter_self]
  have hpos : 0 < (rowTokens r).card :=
    Finset.card_pos.mpr (Finset.nonempty_iff_ne_empty.mpr hne)
  have he0 : ((rowTokens r).card, i, r) ∈ scoredRows df s := by
    refine (mem_scoredRows df s _).mpr ⟨hget, hoverlap.symm, hpos⟩
  have hlt : ∀ e ∈ scoredRows df s, e.2.1 ≠ i → e.1 < (rowTokens r).card := by
    intro e he hei
    rcases (mem_scoredRows df s e).mp he with ⟨hg, hsc, _⟩
    have hj : e.2.1 < df.length := (List.getElem?_eq_some.mp hg).1
    have hnotsub := hmax e.2.1 hj hei
    rw [List.getD_eq_getElem?_getD, hg] at hnotsub
    rcases Finset.not_subset.mp hnotsub with ⟨x, hxr, hxnot⟩
    rw [hsc, overlapScore, hq]
    apply Finset.card_lt_card
    rw [Finset.ssubset_def]
    refine ⟨Finset.inter_subset_left, fun hsub => ?_⟩
    exact hxnot (Finset.mem_inter.mp (hsub hxr)).2
  rcases hrank : rankedRows df s with _ | ⟨h, tl⟩
  · exact absurd ((mem_rankedRows df s _).mpr he0) (by rw [hrank]; simp)
  · have hhead : h ∈ scoredRows df s := by
      rw [← mem_rankedRows df s h, hrank]
      exact List.mem_cons_self h tl
    have hhti : h.2.1 = i := by
      by_contra hne'
      have hh := hlt h hhead hne'
      have he0' : ((rowTokens r).card, i, r) ∈ h :: tl := by
        rw [← hrank]
        exact (mem_rankedRows df s _).mpr he0
      rcases List.mem_cons.mp he0' with heq | htl
      · exact hne' (congrArg (fun e => e.2.1) heq.symm)
      · have hrel := List.rel_of_pairwise_cons (by rw [← hrank]; exact rankedRows_pairwise df s) htl
        have := rankRel_score_le hrel
        omega
    rcases (mem_scoredRows df s h).mp hhead with ⟨hg, hsc, _⟩
    rw [hhti] at hg
    have hrr : h.2.2 = r := by
      rw [hget] at hg
      exact (Option.some_inj.mp hg).symm
    have hsc' : h.1 = (rowTokens r).card := by
      rw [hsc, hrr, hoverlap]
    simp [predict_career_from_skills, hrank, toResult, hrr, hsc']

/-- Witness: the round trip holds for the fallback table's first record. -/
theorem roundtrip_top_match_witness :
    predict_career_from_skills fallbackRows
        (lit "Programming, AI, Video Games, Robotics, Coding, Reading") 1
      = [{ career := fbTech.career, category := fbTech.category,
           education := fbTech.education, score := (rowTokens fbTech).card }] :=
  roundtrip_top_match fallbackRows 0 fbTech
    (lit "Programming, AI, Video Games, Robotics, Coding, Reading")
    (by decide) (by decide) (by decide) (by decide)

/-- C4: with a configured client, when every completion call fails the chat
wrapper makes exactly 3 attempts, sleeping 1 then 2 time units between
them, and returns the fixed failure string; when an attempt succeeds its
text reply is returned verbatim. The wrapper is a total function into
`ChatOutcome`, so no exception escapes it. -/
theorem chat_retry_policy (call : Nat → Except Unit Str) :
    ((∀ i, i < maxRetries → call i = Except.error ()) →
      chat_with_gemini true call
        = { reply := retryFailMsg, attempts := 3, sleeps := [1, 2] }) ∧
    (∀ k t, k < maxRetries → (∀ i, i < k → call i = Except.error ()) →
      call k = Except.ok t → (chat_with_gemini true call).reply = t) := by
  constructor
  · intro h
    rw [chat_with_gemini, if_pos rfl]
    exact chatFrom_all_fail call h
  · intro k t hk hfail hok
    rw [chat_with_gemini, if_pos rfl]
    exact chatFrom_success call k t hk hfail hok

/-- Witness: an always-failing call makes 3 attempts with backoff 1 then 2
and ends in the fixed failure string. -/
theorem chat_retry_policy_witness :
    chat_with_gemini true (fun _ => Except.error ())
      = { reply := retryFailMsg, attempts := 3, sleeps := [1, 2] } :=
  (chat_retry_policy (fun _ => Except.error ())).1 (fun _ _ => rfl)

/-- C8: a known skill token is extracted from a resume exactly when it
occurs as a contiguous substring of the lowercased resume text (so a short
token inside a longer word is still matched), and each extracted token
appears exactly once. -/
theorem resume_substring_extraction (df : List Row) (resumeText : Str) :
    (analyze_resume df resumeText).1 = extract_skills df (strLower resumeText) ∧
    (∀ t, t ∈ extract_skills df (strLower resumeText) ↔
      t ∈ allSkillTokens df ∧ ∃ p q, strLower resumeText = p ++ t ++ q) ∧
    (extract_skills df (strLower resumeText)).Nodup :=
  ⟨rfl, fun t => mem_extract_skills df _ t, extract_skills_nodup df _⟩

/-- Witness: the short token "ai" is extracted from a resume that only
contains it inside the word "air" (a substring false positive). -/
theorem resume_substring_extraction_witness :
    lit "ai" ∈ extract_skills fallbackRows (strLower (lit "I love the open air")) :=
  ((resume_substring_extraction fallbackRows (lit "I love the open air")).2.1
    (lit "ai")).mpr ⟨by decide, lit "i love the open ", lit "r", by decide⟩

/-- C9: the resume analyzer's best result is the sentinel (with no score
field) exactly when no skill token was matched or the matcher returns no
result on the matched tokens; otherwise it is the matcher's single top
result, carrying that result's score. -/
theorem resume_best_fallback (df : List Row) (resumeText : Str) :
    ((analyze_resume df resumeText).1 = [] →
      (analyze_resume df resumeText).2 = sentinelDetails) ∧
    (predict_career_from_skills df (joinCS (extract_skills df (strLower resumeText))) 1 = [] →
      (analyze_resume df resumeText).2 = sentinelDetails ∧
      (analyze_resume df resumeText).2.score = none) ∧
    (∀ m rest,
      predict_career_from_skills df (joinCS (extract_skills df (strLower resumeText))) 1
          = m :: rest →
      (analyze_resume df resumeText).2 = detailsOf m ∧
      (analyze_resume df resumeText).2.score = some m.score) := by
  have hempty : predict_career_from_skills df (joinCS ([] : List Str)) 1 = [] := by
    apply predict_of_no_overlap
    intro r _
    have hpq : parseQuery (joinCS ([] : List Str)) = ∅ := by decide
    rw [hpq]
    exact overlapScore_empty r
  refine ⟨?_, ?_, ?_⟩
  · intro h1
    have h1' : extract_skills df (strLower resumeText) = [] := h1
    simp only [analyze_resume]
    rw [h1', hempty]
  · intro hpred
    simp only [analyze_resume]
    rw [hpred]
    exact ⟨rfl, rfl⟩
  · intro m rest hpred
    simp only [analyze_resume]
    rw [hpred]
    exact ⟨rfl, rfl⟩

/-- Witness: a resume matching no skill token gets the sentinel with no
score. -/
theorem resume_best_fallback_witness :
    (analyze_resume fallbackRows (lit "qqq")).2 = sentinelDetails :=
  (resume_best_fallback fallbackRows (lit "qqq")).1 (by decide)

end CareerGuide
